import Mathlib

set_option maxRecDepth 8000

namespace Regex

/-- Symbol class of an automaton edge, from `src/nfa.rs` (`enum NFAChar`):
`Epsilon` consumes no input, `If c` fires on the literal character `c`
(`NFAChar::If(char)`), `Else` is the catch-all wildcard (`NFAChar::Else`). -/
inductive NFAChar : Type
  | Epsilon : NFAChar
  | If : Char → NFAChar
  | Else : NFAChar
deriving DecidableEq

/-- The transition relation, from `src/nfa.rs`
(`pub type Transition = HashMap<(u32, NFAChar), u32>`).  The hash map is
modelled as an association list with unique keys; states (`u32`) are
modelled as `Nat`, with each subtraction site guarded explicitly (a `u32`
subtraction that would underflow panics in the Rust debug profile). -/
abbrev Transition : Type := List ((Nat × NFAChar) × Nat)

/-- `HashMap::get`: the value stored at key `k`, if any. -/
def tlookup (T : Transition) (k : Nat × NFAChar) : Option Nat :=
  match T with
  | [] => none
  | (k0, v0) :: rest => if k0 = k then some v0 else tlookup rest k

/-- `HashMap::remove`: drop the binding at key `k`. -/
def tremove (T : Transition) (k : Nat × NFAChar) : Transition :=
  match T with
  | [] => []
  | (k0, v0) :: rest => if k0 = k then tremove rest k else (k0, v0) :: tremove rest k

/-- `HashMap::insert`: replace any existing binding at key `k` by `v`. -/
def tinsert (T : Transition) (k : Nat × NFAChar) (v : Nat) : Transition :=
  (k, v) :: tremove T k

/-- The compiled automaton, from `src/nfa.rs` (`pub struct NFA`): the
transition relation plus the accepting-state set (a `HashSet<u32>`,
modelled as a list). -/
structure NFA : Type where
  transitions : Transition
  accepting_states : List Nat
deriving DecidableEq

/-- `HashSet::insert` on the active-state set: the list records insertion
order; inserting an element already present changes nothing. -/
def insertState (states : List Nat) (s : Nat) : List Nat :=
  if s ∈ states then states else states ++ [s]

/-- `NFA::follow_epilon_transition` from `src/nfa.rs` (name kept as in the
source): starting from `curr`, repeatedly follow the `Epsilon` edge,
inserting each reached state into `states`.  The Rust recursion has no
termination guard, so the embedding carries explicit fuel; `none` means the
fuel ran out, i.e. the Rust function is still recursing after that many
calls. -/
def follow_epilon_transition (T : Transition) : Nat → List Nat → Nat → Option (List Nat)
  | 0, _, _ => none
  | fuel + 1, states, curr =>
    match tlookup T (curr, NFAChar.Epsilon) with
    | some new_state =>
        follow_epilon_transition T fuel (insertState states new_state) new_state
    | none => some states

/-- The inner `for state in &current_states` loop of `NFA::run`
(`src/nfa.rs` lines 82-108): scan the active states in the given iteration
order; at the first state with an `If c` edge (or, failing that, an `Else`
edge) rebuild the active set as that destination plus its epsilon-closure
and break.  Result `some none` means no state matched (`count_successes ==
0`); outer `none` means the epsilon-closure ran out of fuel. -/
def scan_states (T : Transition) (fuel : Nat) : List Nat → Char → Option (Option (List Nat))
  | [], _ => some none
  | s :: rest, c =>
    match tlookup T (s, NFAChar.If c) with
    | some new_state =>
        (follow_epilon_transition T fuel [new_state] new_state).map some
    | none =>
        match tlookup T (s, NFAChar.Else) with
        | some new_state =>
            (follow_epilon_transition T fuel [new_state] new_state).map some
        | none => scan_states T fuel rest c

/-- The per-character loop of `NFA::run`.  `σ` supplies the iteration order
of the `HashSet` of active states at each step: Rust's `HashSet` iterates
in an unspecified order, so theorems quantify over `σ` (restricted to
permutations) or instantiate it with a concrete order. -/
def runFrom (T : Transition) (acc : List Nat) (σ : Nat → List Nat → List Nat)
    (fuel : Nat) : Nat → List Nat → List Char → Option Bool
  | _, states, [] => some (states.any fun s => acc.contains s)
  | i, states, c :: cs =>
    match scan_states T fuel (σ i states) c with
    | none => none
    | some none => some false
    | some (some states2) => runFrom T acc σ fuel (i + 1) states2 cs

/-- `NFA::run` from `src/nfa.rs`: seed the active set with state `0` and
its epsilon-closure, consume the input, and accept iff an accepting state
remains active. -/
def run (nfa : NFA) (σ : Nat → List Nat → List Nat) (fuel : Nat)
    (input : List Char) : Option Bool :=
  match follow_epilon_transition nfa.transitions fuel [0] 0 with
  | none => none
  | some states0 => runFrom nfa.transitions nfa.accepting_states σ fuel 0 states0 input

/-- `check_start` from `src/lib.rs`: a pattern starting with `'^'` is
start-anchored and gets an empty initial relation; otherwise a `Wildcard`
self-loop is inserted at state `0`. -/
def check_start (expression : List Char) : Bool × Transition :=
  if expression.head? = some '^' then (true, [])
  else (false, tinsert [] (0, NFAChar.Else) 0)

/-- The compiler's mutable locals of `iterate_through_expression` /
`match_character` in `src/lib.rs`: the state counter, the relation under
construction, the escape flag, the last-literal slot and the end-anchor
flag. -/
structure CompSt : Type where
  curr : Nat
  trans : Transition
  escape : Bool
  last : Option Char
  endf : Bool
deriving DecidableEq

/-- Guarded `u32` decrement: `subGuard n` is `n - 1`, or `none` when the
Rust expression `n - 1` on a `u32` would underflow (debug-profile panic). -/
def subGuard : Nat → Option Nat
  | 0 => none
  | n + 1 => some n

/-- `match_character` from `src/lib.rs` (lines 20-91), one pattern
character.  Every `curr_state - 1` of the source goes through `subGuard`;
`none` means the Rust code underflows its `u32` state counter there. -/
def match_character (c : Char) (st : CompSt) : Option CompSt :=
  if st.escape then
    match subGuard st.curr with
    | none => none
    | some p =>
        some { st with trans := tinsert st.trans (p, NFAChar.If c) st.curr,
                       last := some c, escape := false }
  else if c = '.' then
    match subGuard st.curr with
    | none => none
    | some p => some { st with trans := tinsert st.trans (p, NFAChar.Else) st.curr }
  else if c = '\\' then
    match subGuard st.curr with
    | none => none
    | some p => some { st with curr := p, escape := true }
  else if c = '$' then
    match subGuard st.curr with
    | none => none
    | some p =>
        some { st with endf := true,
                       trans := tinsert st.trans (p, NFAChar.If c) st.curr }
  else if c = '?' then
    match subGuard st.curr with
    | none => none
    | some c1 =>
      match subGuard c1 with
      | none => none
      | some c0 =>
          some { st with curr := c1,
                         trans := tinsert st.trans (c0, NFAChar.Epsilon) c1 }
  else if c = '*' then
    match st.last with
    | some l =>
      match subGuard st.curr with
      | none => none
      | some c1 =>
        match subGuard c1 with
        | none => none
        | some c0 =>
            some { st with curr := c1,
                           trans := tinsert (tinsert (tremove st.trans (c0, NFAChar.If l))
                                      (c0, NFAChar.Epsilon) c1) (c1, NFAChar.If l) c1 }
    | none =>
      match subGuard st.curr with
      | none => none
      | some p =>
          some { st with trans := tinsert st.trans (p, NFAChar.If c) st.curr,
                         last := some c }
  else if c = '+' then
    match st.last with
    | some l =>
      match subGuard st.curr with
      | none => none
      | some c1 =>
          some { st with curr := c1,
                         trans := tinsert st.trans (c1, NFAChar.If l) c1 }
    | none =>
      match subGuard st.curr with
      | none => none
      | some p =>
          some { st with trans := tinsert st.trans (p, NFAChar.If c) st.curr,
                         last := some c }
  else
    match subGuard st.curr with
    | none => none
    | some p =>
        some { st with trans := tinsert st.trans (p, NFAChar.If c) st.curr,
                       last := some c }

/-- `check_end` from `src/lib.rs`: if the end-anchor flag is set, decrement
the counter and remove the provisional `Literal('$')` edge; otherwise add a
`Wildcard` self-loop at the final state.  Returns the finished relation and
the final state. -/
def check_end (T : Transition) (curr : Nat) (endf : Bool) : Option (Transition × Nat) :=
  if endf then
    match subGuard curr with
    | none => none
    | some c1 => some (tremove T (c1, NFAChar.If '$'), c1)
  else
    some (tinsert T (curr, NFAChar.Else) curr, curr)

/-- `iterate_through_expression` from `src/lib.rs`: the single left-to-right
scan.  Each iteration increments the counter and clears the end flag; if
the start-anchor flag is still set the character (the leading `'^'`) is
skipped and consumes no state. -/
def iterate_through_expression : List Char → Bool → CompSt → Option CompSt
  | [], _, st => some st
  | c :: rest, start, st =>
    let st1 : CompSt := { st with curr := st.curr + 1, endf := false }
    if start then
      iterate_through_expression rest false { st1 with curr := st1.curr - 1 }
    else
      match match_character c st1 with
      | none => none
      | some st2 => iterate_through_expression rest false st2

/-- The scan stage of `compile`: `check_start` followed by
`iterate_through_expression` on the initial compiler state. -/
def compile_pre (expression : List Char) : Option CompSt :=
  match check_start expression with
  | (start, transitions) =>
      iterate_through_expression expression start
        { curr := 0, trans := transitions, escape := false, last := none, endf := false }

/-- `compile` from `src/lib.rs`: scan, finalize with `check_end`, and make
the final state the sole accepting state. -/
def compile (expression : List Char) : Option NFA :=
  match compile_pre expression with
  | none => none
  | some st =>
    match check_end st.trans st.curr st.endf with
    | none => none
    | some (t2, c2) => some { transitions := t2, accepting_states := [c2] }

/-- `compile_and_run` from `src/lib.rs`. -/
def compile_and_run (expression input : List Char) (σ : Nat → List Nat → List Nat)
    (fuel : Nat) : Option Bool :=
  (compile expression).bind fun nfa => run nfa σ fuel input

/-- Insertion-order iteration of the active-state hash set (one possible
`HashSet` iteration order). -/
def iterId : Nat → List Nat → List Nat := fun _ l => l

/-- Reversed iteration of the active-state hash set (another possible
`HashSet` iteration order). -/
def iterRev : Nat → List Nat → List Nat := fun _ l => l.reverse

/-- Modelled from the spec (section 4.2, simulation loop step): the
accumulated union over all currently active states of the destination of
`(s, Literal c)` plus its epsilon-closure if that key exists, else the
destination of `(s, Wildcard)` plus its epsilon-closure if that key
exists.  This is the spec's description of the per-character step of
`NFA::run`, used to compare against `scan_states`. -/
def spec_union_step (T : Transition) (fuel : Nat) (c : Char) :
    List Nat → List Nat → Option (List Nat)
  | [], acc => some acc
  | s :: rest, acc =>
    match tlookup T (s, NFAChar.If c) with
    | some d =>
      match follow_epilon_transition T fuel (insertState acc d) d with
      | none => none
      | some acc2 => spec_union_step T fuel c rest acc2
    | none =>
      match tlookup T (s, NFAChar.Else) with
      | some d =>
        match follow_epilon_transition T fuel (insertState acc d) d with
        | none => none
        | some acc2 => spec_union_step T fuel c rest acc2
      | none => spec_union_step T fuel c rest acc

/-- A transition relation whose `Epsilon` edges form a cycle `0 → 1 → 0`. -/
def cycT : Transition :=
  [((0, NFAChar.Epsilon), 1), ((1, NFAChar.Epsilon), 0)]

/-- Every `Epsilon` edge of the relation goes from some state `k` to state
`k + 1`. -/
def EpsInv (T : Transition) : Prop :=
  ∀ k v, tlookup T (k, NFAChar.Epsilon) = some v → v = k + 1

/-- Whatever the `(0, Wildcard)` key maps to is a positive state (so it is
never a self-loop at `0`). -/
def AEls (T : Transition) : Prop :=
  ∀ v, tlookup T (0, NFAChar.Else) = some v → 1 ≤ v

/-- An upper bound on the source states of all edges in the relation. -/
def keyBound (T : Transition) : Nat :=
  T.foldr (fun e m => max e.1.1 m) 0

/-- The relation compiled from the empty pattern. -/
def T_empty : Transition := [((0, NFAChar.Else), 0)]

theorem tlookup_tremove (T : Transition) (k k' : Nat × NFAChar) :
    tlookup (tremove T k) k' = if k' = k then none else tlookup T k' := by
  induction T with
  | nil => simp [tremove, tlookup]
  | cons e rest ih =>
    obtain ⟨k0, v0⟩ := e
    by_cases h0 : k0 = k <;> by_cases h1 : k0 = k' <;>
      simp_all [tremove, tlookup]

theorem tlookup_tinsert (T : Transition) (k k' : Nat × NFAChar) (v : Nat) :
    tlookup (tinsert T k v) k' = if k' = k then some v else tlookup T k' := by
  by_cases h : k' = k
  · subst h; simp [tinsert, tlookup]
  · simp [tinsert, tlookup, tlookup_tremove, h, Ne.symm h]

theorem tlookup_tinsert_self (T : Transition) (k : Nat × NFAChar) (v : Nat) :
    tlookup (tinsert T k v) k = some v := by
  simp [tlookup_tinsert]

theorem tlookup_tinsert_ne (T : Transition) {k k' : Nat × NFAChar} (v : Nat)
    (h : k' ≠ k) : tlookup (tinsert T k v) k' = tlookup T k' := by
  simp [tlookup_tinsert, h]

theorem tlookup_tremove_ne (T : Transition) {k k' : Nat × NFAChar}
    (h : k' ≠ k) : tlookup (tremove T k) k' = tlookup T k' := by
  simp [tlookup_tremove, h]

theorem follow_none {T : Transition} {s : Nat}
    (h : tlookup T (s, NFAChar.Epsilon) = none) {fuel : Nat} (hf : 1 ≤ fuel)
    (v : List Nat) : follow_epilon_transition T fuel v s = some v := by
  cases fuel with
  | zero => omega
  | succ f => simp [follow_epilon_transition, h]

theorem scan_single_if {T : Transition} {fuel s : Nat} {c : Char} {d : Nat}
    (h : tlookup T (s, NFAChar.If c) = some d)
    (hE : tlookup T (d, NFAChar.Epsilon) = none) (hf : 1 ≤ fuel) :
    scan_states T fuel [s] c = some (some [d]) := by
  simp [scan_states, h, follow_none hE hf]

theorem scan_single_else {T : Transition} {fuel s : Nat} {c : Char} {d : Nat}
    (hIf : tlookup T (s, NFAChar.If c) = none)
    (h : tlookup T (s, NFAChar.Else) = some d)
    (hE : tlookup T (d, NFAChar.Epsilon) = none) (hf : 1 ≤ fuel) :
    scan_states T fuel [s] c = some (some [d]) := by
  simp [scan_states, hIf, h, follow_none hE hf]

theorem scan_single_stuck {T : Transition} {fuel s : Nat} {c : Char}
    (hIf : tlookup T (s, NFAChar.If c) = none)
    (hEl : tlookup T (s, NFAChar.Else) = none) :
    scan_states T fuel [s] c = some none := by
  simp [scan_states, hIf, hEl]

theorem runFrom_single_adv {T : Transition} {acc : List Nat}
    {σ : Nat → List Nat → List Nat} (hσ : ∀ i l, (σ i l).Perm l)
    {fuel i s : Nat} {c : Char} {st2 : List Nat} {cs : List Char}
    (h : scan_states T fuel [s] c = some (some st2)) :
    runFrom T acc σ fuel i [s] (c :: cs) = runFrom T acc σ fuel (i + 1) st2 cs := by
  have hs : σ i [s] = [s] := List.perm_singleton.mp (hσ i [s])
  simp [runFrom, hs, h]

theorem runFrom_single_rej {T : Transition} {acc : List Nat}
    {σ : Nat → List Nat → List Nat} (hσ : ∀ i l, (σ i l).Perm l)
    {fuel i s : Nat} {c : Char} {cs : List Char}
    (h : scan_states T fuel [s] c = some none) :
    runFrom T acc σ fuel i [s] (c :: cs) = some false := by
  have hs : σ i [s] = [s] := List.perm_singleton.mp (hσ i [s])
  simp [runFrom, hs, h]

theorem scanT0 {fuel : Nat} (hf : 1 ≤ fuel) (c : Char) :
    scan_states T_empty fuel [0] c = some (some [0]) :=
  scan_single_else (by simp [T_empty, tlookup])
    (show tlookup T_empty (0, NFAChar.Else) = some 0 by simp [T_empty, tlookup])
    (by simp [T_empty, tlookup]) hf

theorem C5_aux (σ : Nat → List Nat → List Nat) (hσ : ∀ i l, (σ i l).Perm l)
    (fuel : Nat) (hf : 1 ≤ fuel) :
    ∀ (s : List Char) (i : Nat), runFrom T_empty [0] σ fuel i [0] s = some true := by
  intro s
  induction s with
  | nil => intro i; rfl
  | cons c cs ih =>
    intro i
    rw [runFrom_single_adv hσ (scanT0 hf c)]
    exact ih (i + 1)

/-- C5: compiling the empty pattern yields an automaton whose start state 0
carries a Wildcard self-loop and is the sole accepting state, so for every
input string `s` (and every hash-set iteration order and sufficient fuel)
`compile_and_run "" s` returns `true`, including on the empty input. -/
theorem C5_empty_pattern_matches_everything (σ : Nat → List Nat → List Nat)
    (fuel : Nat) (hσ : ∀ i l, (σ i l).Perm l) (hf : 1 ≤ fuel) :
    compile [] = some ⟨T_empty, [0]⟩ ∧
    ∀ s : List Char, compile_and_run [] s σ fuel = some true := by
  refine ⟨rfl, fun s => ?_⟩
  show run ⟨T_empty, [0]⟩ σ fuel s = some true
  simp only [run]
  rw [follow_none (by simp [T_empty, tlookup]) hf]
  exact C5_aux σ hσ fuel hf s 0

/-- Witness for C5 at the concrete input "ab" (and the empty input),
with the insertion iteration order and fuel 1. -/
theorem C5_empty_pattern_matches_everything_witness :
    compile_and_run [] ['a', 'b'] iterId 1 = some true ∧
    compile_and_run [] [] iterId 1 = some true :=
  ⟨(C5_empty_pattern_matches_everything iterId 1 (fun _ l => List.Perm.refl l)
      (Nat.le_refl 1)).2 ['a', 'b'],
   (C5_empty_pattern_matches_everything iterId 1 (fun _ l => List.Perm.refl l)
      (Nat.le_refl 1)).2 []⟩

/-- C1: refuted — on the pattern "?" the compiler's `'?'` arm decrements the
state counter to 0 and then computes `curr_state - 1`, which underflows the
`u32` counter (the guarded embedding returns `none` exactly at that
subtraction), so `compile` does not terminate normally on every pattern and
`compile_and_run` does not always return a boolean. -/
theorem C1_question_pattern_underflows :
    compile ['?'] = none ∧ compile_and_run ['?'] [] iterId 9 = none :=
  ⟨rfl, rfl⟩

/-- C9: refuted — a quantifier with the last-literal slot unset is not
always a harmless no-op edge addition: pattern "?" underflows the counter
(`compile` fails at the guarded subtraction), and in pattern "$?" the `'?'`
arm attaches quantifier semantics anyway, inserting the Epsilon bypass edge
`0 → 1` over the `'$'` edge even though no literal precedes. -/
theorem C9_quantifier_without_literal_not_noop :
    compile ['?'] = none ∧
    (compile ['$', '?']).map
      (fun nfa => tlookup nfa.transitions (0, NFAChar.Epsilon)) = some (some 1) :=
  ⟨rfl, rfl⟩

/-- C2: refuted — on the automaton compiled from "a?b", with active states
{0, 1} and input character 'b', the engine's scan replaces the active set
with the closure of the first matching state's destination ({0,1} if state
0 is iterated first, {2} if state 1 is first) and never accumulates, while
the spec's accumulated union over all active states is {0,1,2}; neither
iteration order produces the union (2 is missing from one, 0 from the
other). -/
theorem C2_step_is_not_accumulated_union :
    (compile ['a', '?', 'b']).map
      (fun nfa => scan_states nfa.transitions 9 [0, 1] 'b') = some (some (some [0, 1])) ∧
    (compile ['a', '?', 'b']).map
      (fun nfa => scan_states nfa.transitions 9 [1, 0] 'b') = some (some (some [2])) ∧
    (compile ['a', '?', 'b']).map
      (fun nfa => spec_union_step nfa.transitions 9 'b' [0, 1] []) = some (some [0, 1, 2]) ∧
    (2 ∉ [0, 1] ∧ 0 ∉ [2] ∧ 2 ∈ [0, 1, 2] ∧ 0 ∈ [0, 1, 2]) :=
  ⟨rfl, rfl, rfl, by decide⟩

/-- C3: refuted — `run (compile "a?b") "b"` depends on the iteration order
of the `HashSet` of active states: with insertion order (state 0 first) the
Wildcard self-loop at state 0 wins and the run returns `false`; with the
reversed order state 1's `Literal('b')` edge wins and the run returns
`true`.  Both orders are permutations of the same active set, so the result
of the Rust code, which iterates a `HashSet` in unspecified order, is not
deterministic. -/
theorem C3_run_is_order_dependent :
    compile_and_run ['a', '?', 'b'] ['b'] iterId 9 = some false ∧
    compile_and_run ['a', '?', 'b'] ['b'] iterRev 9 = some true ∧
    (∀ i l, (iterId i l).Perm l) ∧ (∀ i l, (iterRev i l).Perm l) :=
  ⟨rfl, rfl, fun _ l => List.Perm.refl l, fun _ l => l.reverse_perm⟩

theorem cyc_aux : ∀ fuel : Nat,
    follow_epilon_transition cycT fuel [0, 1] 0 = none ∧
    follow_epilon_transition cycT fuel [0, 1] 1 = none := by
  intro fuel
  induction fuel with
  | zero => exact ⟨rfl, rfl⟩
  | succ f ih =>
    exact ⟨ih.2, ih.1⟩

/-- C4: refuted — `follow_epilon_transition` inserts into the visited set
but never checks it before recursing, so on the transition relation with
the Epsilon cycle 0 → 1 → 0 the closure computation never finishes (no
amount of fuel makes it return), and `NFA::run` on that relation never
returns either: the engine is not closure-safe against cycles. -/
theorem C4_epsilon_cycle_diverges :
    (∀ fuel : Nat, follow_epilon_transition cycT fuel [0] 0 = none) ∧
    (∀ (fuel : Nat) (σ : Nat → List Nat → List Nat) (input : List Char),
      run ⟨cycT, [0]⟩ σ fuel input = none) := by
  have h1 : ∀ fuel : Nat, follow_epilon_transition cycT fuel [0] 0 = none := by
    intro fuel
    cases fuel with
    | zero => rfl
    | succ f => exact (cyc_aux f).2
  refine ⟨h1, fun fuel σ input => ?_⟩
  simp only [run]
  rw [h1 fuel]

/-- C8: partially refuted — the `'*'` transition edits are exactly as
claimed (for "a*b*c*d" the `Literal('a')` edge 0 → 1 is removed, an Epsilon
bypass 0 → 1 is inserted, and a `Literal('a')` self-loop at state 1 is
inserted), but the claimed behaviour `compile_and_run "a*b*c*d" "aacccd" ==
true` only holds for favourable hash-set iteration orders: with the
reversed order it is `true`, while with insertion order the Wildcard
self-loop at state 0 consumes every character first and the run returns
`false`. -/
theorem C8_star_edits_but_run_order_dependent :
    (compile ['a', '*', 'b', '*', 'c', '*', 'd']).map
      (fun nfa => tlookup nfa.transitions (0, NFAChar.If 'a')) = some none ∧
    (compile ['a', '*', 'b', '*', 'c', '*', 'd']).map
      (fun nfa => tlookup nfa.transitions (0, NFAChar.Epsilon)) = some (some 1) ∧
    (compile ['a', '*', 'b', '*', 'c', '*', 'd']).map
      (fun nfa => tlookup nfa.transitions (1, NFAChar.If 'a')) = some (some 1) ∧
    compile_and_run ['a', '*', 'b', '*', 'c', '*', 'd']
      ['a', 'a', 'c', 'c', 'c', 'd'] iterRev 99 = some true ∧
    compile_and_run ['a', '*', 'b', '*', 'c', '*', 'd']
      ['a', 'a', 'c', 'c', 'c', 'd'] iterId 99 = some false :=
  ⟨rfl, rfl, rfl, rfl, rfl⟩

theorem subGuard_eq {n m : Nat} (h : subGuard n = some m) : n = m + 1 := by
  cases n with
  | zero => cases h
  | succ k => simp [subGuard] at h; omega

theorem epsInv_tinsert_if {T : Transition} (hI : EpsInv T) (s v : Nat) (c : Char) :
    EpsInv (tinsert T (s, NFAChar.If c) v) := by
  intro k w hk
  rw [tlookup_tinsert_ne T v (by simp)] at hk
  exact hI k w hk

theorem epsInv_tinsert_else {T : Transition} (hI : EpsInv T) (s v : Nat) :
    EpsInv (tinsert T (s, NFAChar.Else) v) := by
  intro k w hk
  rw [tlookup_tinsert_ne T v (by simp)] at hk
  exact hI k w hk

theorem epsInv_tinsert_eps {T : Transition} (hI : EpsInv T) (k0 : Nat) :
    EpsInv (tinsert T (k0, NFAChar.Epsilon) (k0 + 1)) := by
  intro k w hk
  rw [tlookup_tinsert] at hk
  split at hk
  · next heq =>
    have hk0 : k = k0 := congrArg Prod.fst heq
    rw [Option.some.injEq] at hk
    omega
  · exact hI k w hk

theorem epsInv_tremove {T : Transition} (hI : EpsInv T) (k0 : Nat × NFAChar) :
    EpsInv (tremove T k0) := by
  intro k w hk
  rw [tlookup_tremove] at hk
  split at hk
  · cases hk
  · exact hI k w hk

theorem epsInv_nil : EpsInv ([] : Transition) := by
  intro k v hk; cases hk

theorem match_character_epsInv {c : Char} {st st' : CompSt}
    (h : match_character c st = some st') (hI : EpsInv st.trans) :
    EpsInv st'.trans := by
  unfold match_character at h
  by_cases hesc : st.escape = true
  · rw [if_pos hesc] at h
    cases hg : subGuard st.curr with
    | none => rw [hg] at h; cases h
    | some p =>
      rw [hg, Option.some.injEq] at h; subst h
      exact epsInv_tinsert_if hI p st.curr c
  · rw [if_neg hesc] at h
    by_cases h1 : c = '.'
    · rw [if_pos h1] at h
      cases hg : subGuard st.curr with
      | none => rw [hg] at h; cases h
      | some p =>
        rw [hg, Option.some.injEq] at h; subst h
        exact epsInv_tinsert_else hI p st.curr
    · rw [if_neg h1] at h
      by_cases h2 : c = '\\'
      · rw [if_pos h2] at h
        cases hg : subGuard st.curr with
        | none => rw [hg] at h; cases h
        | some p => rw [hg, Option.some.injEq] at h; subst h; exact hI
      · rw [if_neg h2] at h
        by_cases h3 : c = '$'
        · rw [if_pos h3] at h
          cases hg : subGuard st.curr with
          | none => rw [hg] at h; cases h
          | some p =>
            rw [hg, Option.some.injEq] at h; subst h
            exact epsInv_tinsert_if hI p st.curr c
        · rw [if_neg h3] at h
          by_cases h4 : c = '?'
          · rw [if_pos h4] at h
            split at h
            · cases h
            · next c1 hg =>
              split at h
              · cases h
              · next c0 hg2 =>
                rw [Option.some.injEq] at h; subst h
                have hc : c1 = c0 + 1 := subGuard_eq hg2
                subst hc
                exact epsInv_tinsert_eps hI c0
          · rw [if_neg h4] at h
            by_cases h5 : c = '*'
            · rw [if_pos h5] at h
              split at h
              · next l hl =>
                split at h
                · cases h
                · next c1 hg =>
                  split at h
                  · cases h
                  · next c0 hg2 =>
                    rw [Option.some.injEq] at h; subst h
                    have hc : c1 = c0 + 1 := subGuard_eq hg2
                    subst hc
                    exact epsInv_tinsert_if
                      (epsInv_tinsert_eps (epsInv_tremove hI _) c0) (c0 + 1) (c0 + 1) l
              · next hl =>
                split at h
                · cases h
                · next p hg =>
                  rw [Option.some.injEq] at h; subst h
                  exact epsInv_tinsert_if hI p st.curr c
            · rw [if_neg h5] at h
              by_cases h6 : c = '+'
              · rw [if_pos h6] at h
                cases hl : st.last with
                | some l =>
                  rw [hl] at h
                  cases hg : subGuard st.curr with
                  | none => rw [hg] at h; cases h
                  | some c1 =>
                    rw [hg, Option.some.injEq] at h; subst h
                    exact epsInv_tinsert_if hI c1 c1 l
                | none =>
                  rw [hl] at h
                  cases hg : subGuard st.curr with
                  | none => rw [hg] at h; cases h
                  | some p =>
                    rw [hg, Option.some.injEq] at h; subst h
                    exact epsInv_tinsert_if hI p st.curr c
              · rw [if_neg h6] at h
                cases hg : subGuard st.curr with
                | none => rw [hg] at h; cases h
                | some p =>
                  rw [hg, Option.some.injEq] at h; subst h
                  exact epsInv_tinsert_if hI p st.curr c

theorem iterate_epsInv : ∀ (cs : List Char) (b : Bool) (st st' : CompSt),
    iterate_through_expression cs b st = some st' →
    EpsInv st.trans → EpsInv st'.trans := by
  intro cs
  induction cs with
  | nil =>
    intro b st st' h hI
    simp only [iterate_through_expression, Option.some.injEq] at h
    subst h; exact hI
  | cons c rest ih =>
    intro b st st' h hI
    simp only [iterate_through_expression] at h
    by_cases hb : b = true
    · rw [if_pos hb] at h
      exact ih false _ st' h hI
    · rw [if_neg hb] at h
      cases hm : match_character c { st with curr := st.curr + 1, endf := false } with
      | none => rw [hm] at h; cases h
      | some st2 =>
        rw [hm] at h
        exact ih false st2 st' h (match_character_epsInv hm hI)

theorem compile_pre_epsInv {p : List Char} {st : CompSt}
    (h : compile_pre p = some st) : EpsInv st.trans := by
  unfold compile_pre at h
  by_cases hh : p.head? = some '^'
  · rw [show check_start p = (true, []) from by simp [check_start, hh]] at h
    exact iterate_epsInv p true _ st h epsInv_nil
  · rw [show check_start p = (false, tinsert [] (0, NFAChar.Else) 0) from by
      simp [check_start, hh]] at h
    exact iterate_epsInv p false _ st h (epsInv_tinsert_else epsInv_nil 0 0)

theorem check_end_trans {T : Transition} {curr : Nat} {endf : Bool}
    {t2 : Transition} {c2 : Nat} (h : check_end T curr endf = some (t2, c2)) :
    (endf = true ∧ curr = c2 + 1 ∧ t2 = tremove T (c2, NFAChar.If '$')) ∨
    (endf = false ∧ c2 = curr ∧ t2 = tinsert T (curr, NFAChar.Else) curr) := by
  unfold check_end at h
  split at h
  · next he =>
    split at h
    · cases h
    · next c1 hg =>
      rw [Option.some.injEq, Prod.mk.injEq] at h
      obtain ⟨h1, h2⟩ := h
      subst h2
      exact Or.inl ⟨he, subGuard_eq hg, h1.symm⟩
  · next he =>
    rw [Option.some.injEq, Prod.mk.injEq] at h
    have he2 : endf = false := by revert he; cases endf <;> simp
    exact Or.inr ⟨he2, h.2.symm, h.1.symm⟩

theorem compile_epsInv {p : List Char} {nfa : NFA} (h : compile p = some nfa) :
    EpsInv nfa.transitions := by
  unfold compile at h
  split at h
  · cases h
  · next st hp =>
    have hI : EpsInv st.trans := compile_pre_epsInv hp
    split at h
    · cases h
    · next t2 c2 hce =>
      rw [Option.some.injEq] at h; subst h
      rcases check_end_trans hce with ⟨_, _, ht⟩ | ⟨_, _, ht⟩
      · rw [ht]; exact epsInv_tremove hI _
      · rw [ht]; exact epsInv_tinsert_else hI st.curr st.curr

theorem tlookup_le_keyBound {T : Transition} {k : Nat} {sym : NFAChar} {v : Nat}
    (h : tlookup T (k, sym) = some v) : k ≤ keyBound T := by
  induction T with
  | nil => cases h
  | cons e rest ih =>
    obtain ⟨⟨k0, s0⟩, v0⟩ := e
    simp only [tlookup] at h
    show k ≤ max k0 (keyBound rest)
    split at h
    · next heq =>
      have hk0 : k0 = k := congrArg Prod.fst heq
      subst hk0
      exact le_max_left _ _
    · exact le_trans (ih h) (le_max_right _ _)

theorem follow_isSome {T : Transition} (hI : EpsInv T) :
    ∀ (fuel s : Nat) (v : List Nat), keyBound T + 2 ≤ fuel + s → 1 ≤ fuel →
      (follow_epilon_transition T fuel v s).isSome := by
  intro fuel
  induction fuel with
  | zero => intro s v h h1; omega
  | succ f ih =>
    intro s v h h1
    show (match tlookup T (s, NFAChar.Epsilon) with
          | some new_state =>
              follow_epilon_transition T f (insertState v new_state) new_state
          | none => some v).isSome
    cases hl : tlookup T (s, NFAChar.Epsilon) with
    | none => simp
    | some ns =>
      have hns : ns = s + 1 := hI s ns hl
      have hb : s ≤ keyBound T := tlookup_le_keyBound hl
      subst hns
      exact ih (s + 1) (insertState v (s + 1)) (by omega) (by omega)

/-- C10: every Epsilon edge in a relation produced by `compile` goes from
some state `k` to state `k + 1`; consequently the chain of Epsilon edges
from any state strictly increases and stays below the key bound, so the
engine's unguarded recursive epsilon-closure finishes on every automaton
`compile` produces (fuel `keyBound + 2` always suffices, from any state and
any visited set). -/
theorem C10_compiled_epsilon_edges_increment {p : List Char} {nfa : NFA}
    (h : compile p = some nfa) :
    EpsInv nfa.transitions ∧
    ∀ (s : Nat) (v : List Nat),
      (follow_epilon_transition nfa.transitions
        (keyBound nfa.transitions + 2) v s).isSome := by
  have hI : EpsInv nfa.transitions := compile_epsInv h
  exact ⟨hI, fun s v => follow_isSome hI _ s v (by omega) (by omega)⟩

/-- Witness for C10 on the automaton compiled from "a?b": its Epsilon edges
satisfy the increment invariant and its epsilon-closure computation
finishes from state 0. -/
theorem C10_compiled_epsilon_edges_increment_witness :
    (follow_epilon_transition
      [((2, NFAChar.Else), 2), ((1, NFAChar.If 'b'), 2), ((0, NFAChar.Epsilon), 1),
        ((0, NFAChar.If 'a'), 1), ((0, NFAChar.Else), 0)]
      (keyBound [((2, NFAChar.Else), 2), ((1, NFAChar.If 'b'), 2),
        ((0, NFAChar.Epsilon), 1), ((0, NFAChar.If 'a'), 1),
        ((0, NFAChar.Else), 0)] + 2) [0] 0).isSome :=
  (@C10_compiled_epsilon_edges_increment ['a', '?', 'b']
    ⟨[((2, NFAChar.Else), 2), ((1, NFAChar.If 'b'), 2), ((0, NFAChar.Epsilon), 1),
      ((0, NFAChar.If 'a'), 1), ((0, NFAChar.Else), 0)], [2]⟩ rfl).2 0 [0]

theorem match_character_BI {c : Char} {st st' : CompSt}
    (h : match_character c st = some st')
    (hb : tlookup st.trans (0, NFAChar.Else) = some 0)
    (h1 : 1 ≤ st.curr)
    (h2 : st.curr = 1 → st.escape = true ∨ (c ≠ '.' ∧ st.last = none)) :
    tlookup st'.trans (0, NFAChar.Else) = some 0 ∧
      (st'.curr = 0 → st'.escape = true) := by
  unfold match_character at h
  by_cases hesc : st.escape = true
  · rw [if_pos hesc] at h
    split at h
    · cases h
    · next p hg =>
      rw [Option.some.injEq] at h; subst h; dsimp only
      refine ⟨?_, fun hc => absurd hc (by omega)⟩
      rw [tlookup_tinsert_ne _ _ (by simp)]
      exact hb
  · rw [if_neg hesc] at h
    by_cases hd : c = '.'
    · rw [if_pos hd] at h
      split at h
      · cases h
      · next p hg =>
        rw [Option.some.injEq] at h; subst h; dsimp only
        have hcur : st.curr ≠ 1 := by
          intro hcc
          rcases h2 hcc with he | ⟨hne, _⟩
          · exact hesc he
          · exact hne hd
        have hp : st.curr = p + 1 := subGuard_eq hg
        refine ⟨?_, fun hc => absurd hc (by omega)⟩
        rw [tlookup_tinsert_ne _ _ (by simp; omega)]
        exact hb
    · rw [if_neg hd] at h
      by_cases h2' : c = '\\'
      · rw [if_pos h2'] at h
        split at h
        · cases h
        · next p hg =>
          rw [Option.some.injEq] at h; subst h; dsimp only
          exact ⟨hb, fun _ => rfl⟩
      · rw [if_neg h2'] at h
        by_cases h3 : c = '$'
        · rw [if_pos h3] at h
          split at h
          · cases h
          · next p hg =>
            rw [Option.some.injEq] at h; subst h; dsimp only
            refine ⟨?_, fun hc => absurd hc (by omega)⟩
            rw [tlookup_tinsert_ne _ _ (by simp)]
            exact hb
        · rw [if_neg h3] at h
          by_cases h4 : c = '?'
          · rw [if_pos h4] at h
            split at h
            · cases h
            · next c1 hg =>
              split at h
              · cases h
              · next c0 hg2 =>
                rw [Option.some.injEq] at h; subst h; dsimp only
                have hc1 : c1 = c0 + 1 := subGuard_eq hg2
                refine ⟨?_, fun hc => absurd hc (by omega)⟩
                rw [tlookup_tinsert_ne _ _ (by simp)]
                exact hb
          · rw [if_neg h4] at h
            by_cases h5 : c = '*'
            · rw [if_pos h5] at h
              split at h
              · next l hl =>
                split at h
                · cases h
                · next c1 hg =>
                  split at h
                  · cases h
                  · next c0 hg2 =>
                    rw [Option.some.injEq] at h; subst h; dsimp only
                    have hc1 : c1 = c0 + 1 := subGuard_eq hg2
                    refine ⟨?_, fun hc => absurd hc (by omega)⟩
                    rw [tlookup_tinsert_ne _ _ (by simp),
                      tlookup_tinsert_ne _ _ (by simp),
                      tlookup_tremove_ne _ (by simp)]
                    exact hb
              · next hl =>
                split at h
                · cases h
                · next p hg =>
                  rw [Option.some.injEq] at h; subst h; dsimp only
                  refine ⟨?_, fun hc => absurd hc (by omega)⟩
                  rw [tlookup_tinsert_ne _ _ (by simp)]
                  exact hb
            · rw [if_neg h5] at h
              by_cases h6 : c = '+'
              · rw [if_pos h6] at h
                split at h
                · next l hl =>
                  split at h
                  · cases h
                  · next c1 hg =>
                    rw [Option.some.injEq] at h; subst h; dsimp only
                    have hcur : st.curr ≠ 1 := by
                      intro hcc
                      rcases h2 hcc with he | ⟨_, hno⟩
                      · exact hesc he
                      · rw [hno] at hl; cases hl
                    have hc1 : st.curr = c1 + 1 := subGuard_eq hg
                    refine ⟨?_, fun hc => absurd hc (by omega)⟩
                    rw [tlookup_tinsert_ne _ _ (by simp)]
                    exact hb
                · next hl =>
                  split at h
                  · cases h
                  · next p hg =>
                    rw [Option.some.injEq] at h; subst h; dsimp only
                    refine ⟨?_, fun hc => absurd hc (by omega)⟩
                    rw [tlookup_tinsert_ne _ _ (by simp)]
                    exact hb
              · rw [if_neg h6] at h
                split at h
                · cases h
                · next p hg =>
                  rw [Option.some.injEq] at h; subst h; dsimp only
                  refine ⟨?_, fun hc => absurd hc (by omega)⟩
                  rw [tlookup_tinsert_ne _ _ (by simp)]
                  exact hb

theorem iterate_BI : ∀ (cs : List Char) (st st' : CompSt),
    iterate_through_expression cs false st = some st' →
    tlookup st.trans (0, NFAChar.Else) = some 0 →
    (st.curr = 0 → st.escape = true) →
    tlookup st'.trans (0, NFAChar.Else) = some 0 ∧
      (st'.curr = 0 → st'.escape = true) := by
  intro cs
  induction cs with
  | nil =>
    intro st st' h hb hinv
    simp only [iterate_through_expression, Option.some.injEq] at h
    subst h
    exact ⟨hb, hinv⟩
  | cons c rest ih =>
    intro st st' h hb hinv
    simp only [iterate_through_expression] at h
    rw [if_neg Bool.false_ne_true] at h
    split at h
    · cases h
    · next st2 hm =>
      have hstep := match_character_BI hm hb (Nat.le_add_left 1 st.curr)
        (fun hc => Or.inl (hinv (by dsimp only at hc; omega)))
      exact ih st2 st' h hstep.1 hstep.2

/-- Part of the amended C6: for every pattern that is empty or starts with
neither `'^'` nor `'.'`, the compiled relation keeps the Wildcard self-loop
at state 0 that `check_start` seeds. -/
theorem compile_unanchored_loop : ∀ (p : List Char) (nfa : NFA),
    (p = [] ∨ ∃ c cs, p = c :: cs ∧ c ≠ '^' ∧ c ≠ '.') →
    compile p = some nfa → tlookup nfa.transitions (0, NFAChar.Else) = some 0 := by
  intro p nfa hp h
  rcases hp with rfl | ⟨c, cs, rfl, hc1, hc2⟩
  · rw [show compile ([] : List Char) = some ⟨T_empty, [0]⟩ from rfl,
      Option.some.injEq] at h
    subst h
    decide
  · unfold compile at h
    split at h
    · cases h
    · next st hpre =>
      unfold compile_pre at hpre
      rw [show check_start (c :: cs) = (false, tinsert [] (0, NFAChar.Else) 0) from by
        simp [check_start, hc1]] at hpre
      simp only [iterate_through_expression] at hpre
      rw [if_neg Bool.false_ne_true] at hpre
      split at hpre
      · cases hpre
      · next st2 hm =>
        have hstep := match_character_BI hm (by decide) (by decide)
          (fun _ => Or.inr ⟨hc2, rfl⟩)
        have hbi := iterate_BI cs st2 st hpre hstep.1 hstep.2
        split at h
        · cases h
        · next t2 c2 hce =>
          rw [Option.some.injEq] at h; subst h
          rcases check_end_trans hce with ⟨_, _, ht⟩ | ⟨_, _, ht⟩
          · rw [ht, tlookup_tremove_ne _ (by simp)]
            exact hbi.1
          · rw [ht, tlookup_tinsert]
            by_cases hz : st.curr = 0
            · rw [if_pos (by rw [hz])]
              rw [hz]
            · rw [if_neg (by simp; omega)]
              exact hbi.1

theorem aels_tinsert_if {T : Transition} (hA : AEls T) (s v : Nat) (c : Char) :
    AEls (tinsert T (s, NFAChar.If c) v) := by
  intro w hw
  rw [tlookup_tinsert_ne _ _ (by simp)] at hw
  exact hA w hw

theorem aels_tinsert_eps {T : Transition} (hA : AEls T) (s v : Nat) :
    AEls (tinsert T (s, NFAChar.Epsilon) v) := by
  intro w hw
  rw [tlookup_tinsert_ne _ _ (by simp)] at hw
  exact hA w hw

theorem aels_tremove {T : Transition} (hA : AEls T) (k : Nat × NFAChar) :
    AEls (tremove T k) := by
  intro w hw
  rw [tlookup_tremove] at hw
  split at hw
  · cases hw
  · exact hA w hw

theorem aels_tinsert_dot {T : Transition} (hA : AEls T) (p : Nat) :
    AEls (tinsert T (p, NFAChar.Else) (p + 1)) := by
  intro w hw
  rw [tlookup_tinsert] at hw
  split at hw
  · rw [Option.some.injEq] at hw
    omega
  · exact hA w hw

theorem match_character_AEls {c : Char} {st st' : CompSt}
    (h : match_character c st = some st') (hA : AEls st.trans) :
    AEls st'.trans := by
  unfold match_character at h
  by_cases hesc : st.escape = true
  · rw [if_pos hesc] at h
    split at h
    · cases h
    · next p hg =>
      rw [Option.some.injEq] at h; subst h
      exact aels_tinsert_if hA p st.curr c
  · rw [if_neg hesc] at h
    by_cases h1 : c = '.'
    · rw [if_pos h1] at h
      split at h
      · cases h
      · next p hg =>
        rw [Option.some.injEq] at h; subst h; dsimp only
        rw [subGuard_eq hg]
        exact aels_tinsert_dot hA p
    · rw [if_neg h1] at h
      by_cases h2 : c = '\\'
      · rw [if_pos h2] at h
        split at h
        · cases h
        · next p hg => rw [Option.some.injEq] at h; subst h; exact hA
      · rw [if_neg h2] at h
        by_cases h3 : c = '$'
        · rw [if_pos h3] at h
          split at h
          · cases h
          · next p hg =>
            rw [Option.some.injEq] at h; subst h
            exact aels_tinsert_if hA p st.curr c
        · rw [if_neg h3] at h
          by_cases h4 : c = '?'
          · rw [if_pos h4] at h
            split at h
            · cases h
            · next c1 hg =>
              split at h
              · cases h
              · next c0 hg2 =>
                rw [Option.some.injEq] at h; subst h
                exact aels_tinsert_eps hA c0 c1
          · rw [if_neg h4] at h
            by_cases h5 : c = '*'
            · rw [if_pos h5] at h
              split at h
              · next l hl =>
                split at h
                · cases h
                · next c1 hg =>
                  split at h
                  · cases h
                  · next c0 hg2 =>
                    rw [Option.some.injEq] at h; subst h
                    exact aels_tinsert_if
                      (aels_tinsert_eps (aels_tremove hA _) c0 c1) c1 c1 l
              · next hl =>
                split at h
                · cases h
                · next p hg =>
                  rw [Option.some.injEq] at h; subst h
                  exact aels_tinsert_if hA p st.curr c
            · rw [if_neg h5] at h
              by_cases h6 : c = '+'
              · rw [if_pos h6] at h
                split at h
                · next l hl =>
                  split at h
                  · cases h
                  · next c1 hg =>
                    rw [Option.some.injEq] at h; subst h
                    exact aels_tinsert_if hA c1 c1 l
                · next hl =>
                  split at h
                  · cases h
                  · next p hg =>
                    rw [Option.some.injEq] at h; subst h
                    exact aels_tinsert_if hA p st.curr c
              · rw [if_neg h6] at h
                split at h
                · cases h
                · next p hg =>
                  rw [Option.some.injEq] at h; subst h
                  exact aels_tinsert_if hA p st.curr c

theorem iterate_AEls : ∀ (cs : List Char) (b : Bool) (st st' : CompSt),
    iterate_through_expression cs b st = some st' →
    AEls st.trans → AEls st'.trans := by
  intro cs
  induction cs with
  | nil =>
    intro b st st' h hA
    simp only [iterate_through_expression, Option.some.injEq] at h
    subst h; exact hA
  | cons c rest ih =>
    intro b st st' h hA
    simp only [iterate_through_expression] at h
    by_cases hb : b = true
    · rw [if_pos hb] at h
      exact ih false _ st' h hA
    · rw [if_neg hb] at h
      split at h
      · cases h
      · next st2 hm =>
        exact ih false st2 st' h (match_character_AEls hm hA)

/-- Part of the amended C6: for a start-anchored pattern whose final
(accepting) state is positive, the compiled relation has no Wildcard
self-loop at state 0. -/
theorem compile_anchored_no_self_loop : ∀ (p : List Char) (nfa : NFA) (n : Nat),
    p.head? = some '^' → compile p = some nfa → nfa.accepting_states = [n] →
    1 ≤ n → tlookup nfa.transitions (0, NFAChar.Else) ≠ some 0 := by
  intro p nfa n hh h hacc hn
  unfold compile at h
  split at h
  · cases h
  · next st hpre =>
    unfold compile_pre at hpre
    rw [show check_start p = (true, []) from by simp [check_start, hh]] at hpre
    have hA : AEls st.trans := iterate_AEls p true _ st hpre (fun v hv => by cases hv)
    split at h
    · cases h
    · next t2 c2 hce =>
      rw [Option.some.injEq] at h; subst h
      have hc2 : c2 = n := by simpa using hacc
      rcases check_end_trans hce with ⟨_, _, ht⟩ | ⟨_, hcc, ht⟩
      · rw [show (NFA.mk t2 [c2]).transitions = t2 from rfl, ht,
          tlookup_tremove_ne _ (by simp)]
        intro hv
        have := hA 0 hv
        omega
      · rw [show (NFA.mk t2 [c2]).transitions = t2 from rfl, ht, tlookup_tinsert]
        rw [if_neg (by simp; omega)]
        intro hv
        have := hA 0 hv
        omega

/-- The relation compiled from "abcd". -/
def T_abcd : Transition :=
  [((4, NFAChar.Else), 4), ((3, NFAChar.If 'd'), 4), ((2, NFAChar.If 'c'), 3),
   ((1, NFAChar.If 'b'), 2), ((0, NFAChar.If 'a'), 1), ((0, NFAChar.Else), 0)]

/-- The relation compiled from "^abcd". -/
def T_caret_abcd : Transition :=
  [((4, NFAChar.Else), 4), ((3, NFAChar.If 'd'), 4), ((2, NFAChar.If 'c'), 3),
   ((1, NFAChar.If 'b'), 2), ((0, NFAChar.If 'a'), 1)]

/-- The relation compiled from "abcd$". -/
def T_abcd_dollar : Transition :=
  [((3, NFAChar.If 'd'), 4), ((2, NFAChar.If 'c'), 3), ((1, NFAChar.If 'b'), 2),
   ((0, NFAChar.If 'a'), 1), ((0, NFAChar.Else), 0)]

theorem run_abcd_on_xxxabcd {σ : Nat → List Nat → List Nat} {fuel : Nat}
    (hσ : ∀ i l, (σ i l).Perm l) (hf : 1 ≤ fuel) :
    compile_and_run ['a', 'b', 'c', 'd'] ['x', 'x', 'x', 'a', 'b', 'c', 'd'] σ fuel =
      some true := by
  show run ⟨T_abcd, [4]⟩ σ fuel ['x', 'x', 'x', 'a', 'b', 'c', 'd'] = some true
  simp only [run]
  rw [follow_none (show tlookup T_abcd (0, NFAChar.Epsilon) = none by decide) hf]
  show runFrom T_abcd [4] σ fuel 0 [0] ['x', 'x', 'x', 'a', 'b', 'c', 'd'] = some true
  have hx : scan_states T_abcd fuel [0] 'x' = some (some [0]) :=
    scan_single_else (by decide)
      (show tlookup T_abcd (0, NFAChar.Else) = some 0 by decide) (by decide) hf
  have ha : scan_states T_abcd fuel [0] 'a' = some (some [1]) :=
    scan_single_if (show tlookup T_abcd (0, NFAChar.If 'a') = some 1 by decide)
      (by decide) hf
  have hb : scan_states T_abcd fuel [1] 'b' = some (some [2]) :=
    scan_single_if (show tlookup T_abcd (1, NFAChar.If 'b') = some 2 by decide)
      (by decide) hf
  have hc : scan_states T_abcd fuel [2] 'c' = some (some [3]) :=
    scan_single_if (show tlookup T_abcd (2, NFAChar.If 'c') = some 3 by decide)
      (by decide) hf
  have hd : scan_states T_abcd fuel [3] 'd' = some (some [4]) :=
    scan_single_if (show tlookup T_abcd (3, NFAChar.If 'd') = some 4 by decide)
      (by decide) hf
  rw [runFrom_single_adv hσ hx, runFrom_single_adv hσ hx, runFrom_single_adv hσ hx,
    runFrom_single_adv hσ ha, runFrom_single_adv hσ hb, runFrom_single_adv hσ hc,
    runFrom_single_adv hσ hd]
  rfl

theorem run_caret_abcd_on_abcd {σ : Nat → List Nat → List Nat} {fuel : Nat}
    (hσ : ∀ i l, (σ i l).Perm l) (hf : 1 ≤ fuel) :
    compile_and_run ['^', 'a', 'b', 'c', 'd'] ['a', 'b', 'c', 'd'] σ fuel = some true := by
  show run ⟨T_caret_abcd, [4]⟩ σ fuel ['a', 'b', 'c', 'd'] = some true
  simp only [run]
  rw [follow_none (show tlookup T_caret_abcd (0, NFAChar.Epsilon) = none by decide) hf]
  show runFrom T_caret_abcd [4] σ fuel 0 [0] ['a', 'b', 'c', 'd'] = some true
  rw [runFrom_single_adv hσ (scan_single_if
      (show tlookup T_caret_abcd (0, NFAChar.If 'a') = some 1 by decide) (by decide) hf),
    runFrom_single_adv hσ (scan_single_if
      (show tlookup T_caret_abcd (1, NFAChar.If 'b') = some 2 by decide) (by decide) hf),
    runFrom_single_adv hσ (scan_single_if
      (show tlookup T_caret_abcd (2, NFAChar.If 'c') = some 3 by decide) (by decide) hf),
    runFrom_single_adv hσ (scan_single_if
      (show tlookup T_caret_abcd (3, NFAChar.If 'd') = some 4 by decide) (by decide) hf)]
  rfl

theorem run_caret_abcd_on_xxxabcd {σ : Nat → List Nat → List Nat} {fuel : Nat}
    (hσ : ∀ i l, (σ i l).Perm l) (hf : 1 ≤ fuel) :
    compile_and_run ['^', 'a', 'b', 'c', 'd'] ['x', 'x', 'x', 'a', 'b', 'c', 'd'] σ fuel =
      some false := by
  show run ⟨T_caret_abcd, [4]⟩ σ fuel ['x', 'x', 'x', 'a', 'b', 'c', 'd'] = some false
  simp only [run]
  rw [follow_none (show tlookup T_caret_abcd (0, NFAChar.Epsilon) = none by decide) hf]
  show runFrom T_caret_abcd [4] σ fuel 0 [0] ['x', 'x', 'x', 'a', 'b', 'c', 'd'] =
    some false
  rw [runFrom_single_rej hσ (scan_single_stuck (by decide) (by decide))]

theorem run_abcd_dollar_on_abcd {σ : Nat → List Nat → List Nat} {fuel : Nat}
    (hσ : ∀ i l, (σ i l).Perm l) (hf : 1 ≤ fuel) :
    compile_and_run ['a', 'b', 'c', 'd', '$'] ['a', 'b', 'c', 'd'] σ fuel = some true := by
  show run ⟨T_abcd_dollar, [4]⟩ σ fuel ['a', 'b', 'c', 'd'] = some true
  simp only [run]
  rw [follow_none (show tlookup T_abcd_dollar (0, NFAChar.Epsilon) = none by decide) hf]
  show runFrom T_abcd_dollar [4] σ fuel 0 [0] ['a', 'b', 'c', 'd'] = some true
  rw [runFrom_single_adv hσ (scan_single_if
      (show tlookup T_abcd_dollar (0, NFAChar.If 'a') = some 1 by decide) (by decide) hf),
    runFrom_single_adv hσ (scan_single_if
      (show tlookup T_abcd_dollar (1, NFAChar.If 'b') = some 2 by decide) (by decide) hf),
    runFrom_single_adv hσ (scan_single_if
      (show tlookup T_abcd_dollar (2, NFAChar.If 'c') = some 3 by decide) (by decide) hf),
    runFrom_single_adv hσ (scan_single_if
      (show tlookup T_abcd_dollar (3, NFAChar.If 'd') = some 4 by decide) (by decide) hf)]
  rfl

theorem run_abcd_dollar_on_abcdxxx {σ : Nat → List Nat → List Nat} {fuel : Nat}
    (hσ : ∀ i l, (σ i l).Perm l) (hf : 1 ≤ fuel) :
    compile_and_run ['a', 'b', 'c', 'd', '$'] ['a', 'b', 'c', 'd', 'x', 'x', 'x'] σ fuel =
      some false := by
  show run ⟨T_abcd_dollar, [4]⟩ σ fuel ['a', 'b', 'c', 'd', 'x', 'x', 'x'] = some false
  simp only [run]
  rw [follow_none (show tlookup T_abcd_dollar (0, NFAChar.Epsilon) = none by decide) hf]
  show runFrom T_abcd_dollar [4] σ fuel 0 [0] ['a', 'b', 'c', 'd', 'x', 'x', 'x'] =
    some false
  rw [runFrom_single_adv hσ (scan_single_if
      (show tlookup T_abcd_dollar (0, NFAChar.If 'a') = some 1 by decide) (by decide) hf),
    runFrom_single_adv hσ (scan_single_if
      (show tlookup T_abcd_dollar (1, NFAChar.If 'b') = some 2 by decide) (by decide) hf),
    runFrom_single_adv hσ (scan_single_if
      (show tlookup T_abcd_dollar (2, NFAChar.If 'c') = some 3 by decide) (by decide) hf),
    runFrom_single_adv hσ (scan_single_if
      (show tlookup T_abcd_dollar (3, NFAChar.If 'd') = some 4 by decide) (by decide) hf),
    runFrom_single_rej hσ (scan_single_stuck (by decide) (by decide))]

/-- C6 (amended): if the pattern's first character is `'^'`, matching must
align with the start of the input (`"^abcd"` rejects `"xxxabcd"` and
accepts `"abcd"`), and — provided the final accepting state is positive —
the compiled relation carries no Wildcard self-loop at state 0; for every
pattern that is empty or starts with neither `'^'` nor `'.'`, the compiled
relation maps `(0, Wildcard)` to 0, tolerating an arbitrary unmatched
prefix (`"abcd"` accepts `"xxxabcd"`).  A leading unescaped `'.'`
overwrites the prefix loop, and the pattern `"^"` regains a loop at state 0
during finalization, which is what the counterexample exhibits. -/
theorem C6_amended_anchor_and_prefix_loop (σ : Nat → List Nat → List Nat)
    (fuel : Nat) (hσ : ∀ i l, (σ i l).Perm l) (hf : 1 ≤ fuel) :
    (∀ (p : List Char) (nfa : NFA),
      (p = [] ∨ ∃ c cs, p = c :: cs ∧ c ≠ '^' ∧ c ≠ '.') →
      compile p = some nfa → tlookup nfa.transitions (0, NFAChar.Else) = some 0) ∧
    (∀ (p : List Char) (nfa : NFA) (n : Nat),
      p.head? = some '^' → compile p = some nfa → nfa.accepting_states = [n] →
      1 ≤ n → tlookup nfa.transitions (0, NFAChar.Else) ≠ some 0) ∧
    compile_and_run ['^', 'a', 'b', 'c', 'd'] ['a', 'b', 'c', 'd'] σ fuel = some true ∧
    compile_and_run ['^', 'a', 'b', 'c', 'd'] ['x', 'x', 'x', 'a', 'b', 'c', 'd'] σ fuel =
      some false ∧
    compile_and_run ['a', 'b', 'c', 'd'] ['x', 'x', 'x', 'a', 'b', 'c', 'd'] σ fuel =
      some true :=
  ⟨compile_unanchored_loop, compile_anchored_no_self_loop,
    run_caret_abcd_on_abcd hσ hf, run_caret_abcd_on_xxxabcd hσ hf,
    run_abcd_on_xxxabcd hσ hf⟩

/-- Witness for the amended C6: the concrete anchored and unanchored
behaviours, plus the prefix loop of the compiled pattern "a". -/
theorem C6_amended_anchor_and_prefix_loop_witness :
    tlookup [((1, NFAChar.Else), 1), ((0, NFAChar.If 'a'), 1), ((0, NFAChar.Else), 0)]
      (0, NFAChar.Else) = some 0 ∧
    compile_and_run ['^', 'a', 'b', 'c', 'd'] ['a', 'b', 'c', 'd'] iterId 1 = some true ∧
    compile_and_run ['^', 'a', 'b', 'c', 'd'] ['x', 'x', 'x', 'a', 'b', 'c', 'd'] iterId 1 =
      some false ∧
    compile_and_run ['a', 'b', 'c', 'd'] ['x', 'x', 'x', 'a', 'b', 'c', 'd'] iterId 1 =
      some true := by
  have h := C6_amended_anchor_and_prefix_loop iterId 1
    (fun _ l => List.Perm.refl l) (Nat.le_refl 1)
  exact ⟨h.1 ['a'] ⟨[((1, NFAChar.Else), 1), ((0, NFAChar.If 'a'), 1),
      ((0, NFAChar.Else), 0)], [1]⟩
      (Or.inr ⟨'a', [], rfl, by decide, by decide⟩) rfl,
    h.2.2.1, h.2.2.2.1, h.2.2.2.2⟩

/-- C7: if the end-anchor flag is set after the scan (the pattern's last
character was an unescaped `'$'`), finalization decrements the final state
by one, removes the provisional `Literal('$')` edge, and leaves the
`(final, Wildcard)` key exactly as it was (no trailing loop is added);
otherwise it adds the Wildcard self-loop at the final state.  Concretely,
"abcd$" compiles to accepting state 4 with neither a `Literal('$')` edge
nor a Wildcard loop at 4 (so `"abcd"` is accepted and `"abcdxxx"`
rejected), while "abcd" and "a$b" (where `'$'` is not last) end with a
Wildcard self-loop at their final state. -/
theorem C7_end_anchor_finalization (σ : Nat → List Nat → List Nat)
    (fuel : Nat) (hσ : ∀ i l, (σ i l).Perm l) (hf : 1 ≤ fuel) :
    (∀ (T : Transition) (curr : Nat) (endf : Bool) (t2 : Transition) (c2 : Nat),
      check_end T curr endf = some (t2, c2) →
      (endf = true → curr = c2 + 1 ∧ tlookup t2 (c2, NFAChar.If '$') = none ∧
        tlookup t2 (c2, NFAChar.Else) = tlookup T (c2, NFAChar.Else)) ∧
      (endf = false → c2 = curr ∧ tlookup t2 (curr, NFAChar.Else) = some curr)) ∧
    (compile ['a', 'b', 'c', 'd', '$']).map (fun nfa => nfa.accepting_states) =
      some [4] ∧
    (compile ['a', 'b', 'c', 'd', '$']).map
      (fun nfa => tlookup nfa.transitions (4, NFAChar.If '$')) = some none ∧
    (compile ['a', 'b', 'c', 'd', '$']).map
      (fun nfa => tlookup nfa.transitions (4, NFAChar.Else)) = some none ∧
    (compile ['a', 'b', 'c', 'd']).map
      (fun nfa => tlookup nfa.transitions (4, NFAChar.Else)) = some (some 4) ∧
    (compile ['a', '$', 'b']).map
      (fun nfa => tlookup nfa.transitions (3, NFAChar.Else)) = some (some 3) ∧
    compile_and_run ['a', 'b', 'c', 'd', '$'] ['a', 'b', 'c', 'd'] σ fuel = some true ∧
    compile_and_run ['a', 'b', 'c', 'd', '$'] ['a', 'b', 'c', 'd', 'x', 'x', 'x'] σ fuel =
      some false := by
  refine ⟨?_, rfl, rfl, rfl, rfl, rfl,
    run_abcd_dollar_on_abcd hσ hf, run_abcd_dollar_on_abcdxxx hσ hf⟩
  intro T curr endf t2 c2 h
  rcases check_end_trans h with ⟨he, hc, ht⟩ | ⟨he, hc, ht⟩
  · constructor
    · intro _
      refine ⟨hc, ?_, ?_⟩
      · rw [ht, tlookup_tremove]
        simp
      · rw [ht, tlookup_tremove_ne _ (by simp)]
    · intro hf2
      rw [he] at hf2
      cases hf2
  · constructor
    · intro ht2
      rw [he] at ht2
      cases ht2
    · intro _
      subst hc
      exact ⟨rfl, by rw [ht, tlookup_tinsert_self]⟩

/-- Witness for C7: the concrete end-anchored behaviours, plus the
finalization facts at a concrete `check_end` call. -/
theorem C7_end_anchor_finalization_witness :
    compile_and_run ['a', 'b', 'c', 'd', '$'] ['a', 'b', 'c', 'd'] iterId 1 = some true ∧
    compile_and_run ['a', 'b', 'c', 'd', '$'] ['a', 'b', 'c', 'd', 'x', 'x', 'x'] iterId 1 =
      some false := by
  have h := C7_end_anchor_finalization iterId 1
    (fun _ l => List.Perm.refl l) (Nat.le_refl 1)
  exact ⟨h.2.2.2.2.2.2.1, h.2.2.2.2.2.2.2⟩

/-- C6 counterexample: for the pattern ".bcd" (not start-anchored) the
compiled relation maps `(0, Wildcard)` to 1, not to 0 — the leading
unescaped `'.'` overwrites the prefix self-loop — and the unanchored search
behaviour fails: ".bcd" does not match "xxbcd" (the match at offset 1 is
never found); moreover for the anchored pattern "^" the finalization adds a
Wildcard self-loop at state 0 after all. -/
theorem C6_dot_start_loses_prefix_loop :
    (compile ['.', 'b', 'c', 'd']).map
      (fun nfa => tlookup nfa.transitions (0, NFAChar.Else)) = some (some 1) ∧
    compile_and_run ['.', 'b', 'c', 'd'] ['x', 'x', 'b', 'c', 'd'] iterId 9 = some false ∧
    (compile ['^']).map
      (fun nfa => tlookup nfa.transitions (0, NFAChar.Else)) = some (some 0) :=
  ⟨rfl, rfl, rfl⟩

end Regex
